import Mathlib

/-!
Shallow embedding of `contrib/QuadMeshingTools/qmt_cross_field.cpp` (cross-field
computation by successive heat diffusion and projection) and proofs about it.

Modelling conventions:
* machine ids (`id`, 32-bit unsigned) are modelled as `ℕ`, signed slots (`sid`) as `ℤ`;
* IEEE doubles are modelled as exact arithmetic: `ℚ` for the linear-system plumbing
  (assembly, compaction, diffusion loop) and `ℝ` where transcendental functions
  (`atan2`, `tan`, `sqrt`) are essential;
* values that the C++ code obtains from transcendental geometry (rotation cosines,
  Crouzeix-Raviart weights, lumped masses, vector norms) are threaded through as
  parameters of the corresponding structural definitions;
* the external sparse linear solver is modelled by its contract: an exact solution
  of the row equations it is handed;
* `bool` returning functions that log an error and return `false` are modelled with
  `Option` (`none` = failure signal).
-/

namespace QMT

/-- Pair of vertex ids, `id2` in the source. -/
abbrev id2 := ℕ × ℕ

/-- Triangle given by three vertex ids, `id3` in the source. -/
abbrev id3 := ℕ × ℕ × ℕ

/-- Modelled from the spec: the sentinel vertex id (`NO_ID`, declared in
`qmt_types.hpp` which is not among the sources), the all-ones 32-bit value,
marking invalid ids and `boundary: no neighbor` adjacency slots. -/
def NO_ID : ℕ := 4294967295

/-- `QMT_CF_Utils::sorted`: the pair of two vertex ids in ascending order. -/
def sortedPair (v1 v2 : ℕ) : id2 := if v1 < v2 then (v1, v2) else (v2, v1)

/-- The three local edges of a triangle, each as a sorted vertex pair
(the loop over `lf` with `face = {t[lf], t[(lf+1)%3]}` followed by `std::sort`). -/
def triangleFaces (t : id3) : List id2 :=
  [sortedPair t.1 t.2.1, sortedPair t.2.1 t.2.2, sortedPair t.2.2 t.1]

/-- All 3·T face occurrences of a triangle list, in source order. -/
def facesOf (triangles : List id3) : List id2 := triangles.flatMap triangleFaces

/-- Lexicographic order on vertex pairs (the order used to sort the face list). -/
def id2Le (a b : id2) : Prop := a.1 < b.1 ∨ (a.1 = b.1 ∧ a.2 ≤ b.2)

instance : DecidableRel id2Le := fun a b => by unfold id2Le; infer_instance

/-- Modelled from the spec: `sort_unique_with_perm` (declared in `qmt_utils.hpp`,
which is not among the sources) sorts the face list and deduplicates it, returning
the unique faces and, for every original face position, the index of its unique
face (`old2IEdge`). -/
def sort_unique_with_perm (faces : List id2) : List id2 × List ℕ :=
  let u := (faces.insertionSort id2Le).dedup
  (u, faces.map fun f => u.indexOf f)

/-- The `unique face to elements` mapping: for each unique edge, the ascending list
of face positions mapping to it. -/
def uIEdgeToOldOf (faces : List id2) (old2IEdge : List ℕ) (nbUniques : ℕ) : List (List ℕ) :=
  (List.range nbUniques).map fun i =>
    (List.range faces.length).filter fun k => old2IEdge.getD k 0 == i

/-- Write value `v` into local adjacency slot `lf` of triangle `e`
(`triangle_neighbors[e][lf] = v`). -/
def setSlot (tn : List (List ℤ)) (e lf : ℕ) (v : ℤ) : List (List ℤ) :=
  tn.set e ((tn.getD e []).set lf v)

/-- The outputs of `compute_triangle_adjacencies`. -/
structure AdjResult where
  triangle_neighbors : List (List ℤ)
  nm_triangle_neighbors : List (List ℕ)
  uIEdges : List id2
  old2IEdge : List ℕ
  uIEdgeToOld : List (List ℕ)
deriving DecidableEq

/-- Body of the loop over unique edges in `compute_triangle_adjacencies`: skip the
all-sentinel face, fail on a remaining sentinel component, otherwise classify the
edge by occurrence count (1 boundary, 2 regular cross-link, more non-manifold). -/
def adjStep (uIEdges : List id2) (u2o : List (List ℕ))
    (st : List (List ℤ) × List (List ℕ)) (i : ℕ) :
    Option (List (List ℤ) × List (List ℕ)) :=
  let e := uIEdges.getD i (0, 0)
  if e = (NO_ID, NO_ID) then some st
  else if e.1 = NO_ID then none
  else if e.2 = NO_ID then none
  else
    let occ := u2o.getD i []
    if occ.length = 1 then
      let o := occ.getD 0 0
      some (setSlot st.1 (o / 3) (o % 3) (NO_ID : ℤ), st.2)
    else if occ.length = 2 then
      let o1 := occ.getD 0 0
      let o2 := occ.getD 1 0
      some (setSlot (setSlot st.1 (o1 / 3) (o1 % 3) ((3 * (o2 / 3) + o2 % 3 : ℕ) : ℤ))
              (o2 / 3) (o2 % 3) ((3 * (o1 / 3) + o1 % 3 : ℕ) : ℤ), st.2)
    else
      some (occ.foldl (fun st2 oj =>
        let neighs := occ.filter fun ok => ok != oj
        (setSlot st2.1 (oj / 3) (oj % 3) (-((st2.2.length : ℤ) + 1)), st2.2 ++ [neighs])) st)

/-- `compute_triangle_adjacencies`: unique edges, occurrence mappings, per-triangle
adjacency and the non-manifold neighbor list; `none` models `return false`. -/
def compute_triangle_adjacencies (triangles : List id3) : Option AdjResult :=
  let faces := facesOf triangles
  let su := sort_unique_with_perm faces
  let u2o := uIEdgeToOldOf faces su.2 su.1.length
  let init := (List.replicate triangles.length [(NO_ID : ℤ), (NO_ID : ℤ), (NO_ID : ℤ)],
               ([] : List (List ℕ)))
  match (List.range su.1.length).foldlM (adjStep su.1 u2o) init with
  | none => none
  | some st => some ⟨st.1, st.2, su.1, su.2, u2o⟩

/-- The unique edges produced by the sort-and-deduplicate step for a triangle list
(the `uIEdges` output of `compute_triangle_adjacencies`). -/
def uIEdgesOf (triangles : List id3) : List id2 :=
  (sort_unique_with_perm (facesOf triangles)).1

/-- The occurrence lists per unique edge for a triangle list (the `uIEdgeToOld`
output of `compute_triangle_adjacencies`). -/
def uIEdgeToOldAll (triangles : List id3) : List (List ℕ) :=
  uIEdgeToOldOf (facesOf triangles) (sort_unique_with_perm (facesOf triangles)).2
    (uIEdgesOf triangles).length

/-- The per-triangle adjacency slots computed for a triangle list (empty on
failure). -/
def tnOf (triangles : List id3) : List (List ℤ) :=
  ((compute_triangle_adjacencies triangles).map AdjResult.triangle_neighbors).getD []

/-- The non-manifold neighbor list computed for a triangle list (empty on
failure). -/
def nmOf (triangles : List id3) : List (List ℕ) :=
  ((compute_triangle_adjacencies triangles).map AdjResult.nm_triangle_neighbors).getD []

/-- The `no internal edges` early failure of `compute_cross_field_with_heat`:
true exactly when adjacency construction succeeded and `uIEdges.size() == 0`. -/
def no_internal_edges_failure (triangles : List id3) : Bool :=
  match compute_triangle_adjacencies triangles with
  | none => false
  | some r => r.uIEdges.length == 0

/-- The Dirichlet flags of `compute_cross_field_with_heat`: mark every unique edge
whose occurrence count differs from 2, then mark every unique edge matching a
line element (first match of the sorted line pair). -/
def dirichlet_edges (uIEdges : List id2) (u2o : List (List ℕ)) (lines : List id2) : List Bool :=
  let d0 := (List.range uIEdges.length).map fun e => (u2o.getD e []).length != 2
  lines.foldl (fun d l =>
    match uIEdges.findIdx? (fun p => p == sortedPair l.1 l.2) with
    | some e => d.set e true
    | none => d) d0

/-- The first guard of `stiffness_coefficient` (line 234): the computation proceeds
only when the edge has exactly two occurrences. -/
def stiffness_occurrence_ok (occ : List ℕ) : Bool := occ.length == 2

/-- The per-iteration timestep of the diffusion loop (line 559):
`dt = dtInitial + (dtFinal-dtInitial) * (iter/(nbIter-1))`, where `iter` is a
`size_t` and `nbIter` an `int`, so the division is unsigned integer division. -/
def dt_schedule (dtInitial dtFinal : ℚ) (nbIter iter : ℕ) : ℚ :=
  dtInitial + (dtFinal - dtInitial) * ((iter / (nbIter - 1) : ℕ) : ℚ)

/-- The timestep in terms of the extreme edge lengths (lines 554-555:
`dtFinal = emin*emin`, `dtInitial = emax*emax`). -/
def dt_of (emin emax : ℚ) (nbIter iter : ℕ) : ℚ :=
  dt_schedule (emax * emax) (emin * emin) nbIter iter

/-- The diffusion loop skeleton (lines 557-558): the caller-supplied `nbIter` is
overwritten by `nbIter = 10` immediately before `F(iter,nbIter)`, so the loop
body runs a fixed 10 times whatever the argument was. -/
def heat_diffusion_loop {St : Type} (nbIter : ℤ) (body : ℕ → St → St) (x0 : St) : St × ℕ :=
  let nbIterFixed : ℕ := 10
  (((List.range nbIterFixed).foldl (fun s it => body it s) x0), nbIterFixed)

/-- The diagonal seeds emitted by `stiffness_coefficient` for the central edge
(lines 316-317): a unit entry for each of its two unknowns. -/
def stiffness_iv (e : ℕ) : List (ℕ × ℚ) := [(2 * e, 1), (2 * e + 1, 1)]

/-- The sixteen sparse coefficients emitted by `stiffness_coefficient`
(lines 318-325): for each of the four neighbor edges `bvars j`, a 2×2 rotation
block scaled by the normalized Crouzeix-Raviart weight.  The transcendental
values `cos(4·alpha[j])`, `sin(4·alpha[j])` and the weights are parameters
(`cos4a`, `sin4a`, `crw`). -/
def stiffness_ijv (e : ℕ) (bvars : ℕ → ℕ) (crw cos4a sin4a : ℕ → ℚ) : List ((ℕ × ℕ) × ℚ) :=
  (List.range 4).flatMap fun j =>
    let xj := 2 * bvars j
    let yj := 2 * bvars j + 1
    [((2 * e, xj), crw j * cos4a j),
     ((2 * e, yj), crw j * (-1) * sin4a j),
     ((2 * e + 1, xj), crw j * sin4a j),
     ((2 * e + 1, yj), crw j * cos4a j)]

/-- The raw Crouzeix-Raviart weight of a neighbor edge (line 304):
`w = -2 / tan(agl)`. -/
noncomputable def CR_raw_weight (agl : ℝ) : ℝ := -2 / Real.tan agl

/-- The normalization of the four raw weights (lines 309-310): each is divided by
the negated total `isum = -1 * (w0+w1+w2+w3)` (written out at each component). -/
noncomputable def CR_normalized_weights (w0 w1 w2 w3 : ℝ) : ℝ × ℝ × ℝ × ℝ :=
  (w0 / (-1 * (w0 + w1 + w2 + w3)), w1 / (-1 * (w0 + w1 + w2 + w3)),
   w2 / (-1 * (w0 + w1 + w2 + w3)), w3 / (-1 * (w0 + w1 + w2 + w3)))

/-- The epsilon constant `EPS = 1.e-14` (modelled exactly), rational version. -/
def EPS : ℚ := 1 / 10 ^ 14

/-- A sparse coefficient: ((row, column), value), `struct IJV` in the source. -/
abbrev IJV := (ℕ × ℕ) × ℚ

/-- The strict-weak order `IJV::operator<` (row-major, then column) extended to a
total order for sorting; ties in the key are value-irrelevant because equal keys
are summed. -/
def ijvLe (a b : IJV) : Prop := a.1.1 < b.1.1 ∨ (a.1.1 = b.1.1 ∧ a.1.2 ≤ b.1.2)

instance : DecidableRel ijvLe := fun a b => by unfold ijvLe; infer_instance

/-- The flush step of `prepare_system`: the accumulated value for the current
(row, column) key is emitted only when its absolute value exceeds `EPS`. -/
def mergeFlush (ci cj : ℕ) (acc : ℚ) : List IJV :=
  if |acc| > EPS then [((ci, cj), acc)] else []

/-- The duplicate-merging scan of `prepare_system` (lines 343-366): walk the
sorted coefficients, accumulating values of equal (row, column) keys and flushing
the accumulator whenever the key changes; a final flush (lines 367-370). -/
def mergeCoefs : List IJV → ℕ → ℕ → ℚ → List IJV
  | [], ci, cj, acc => mergeFlush ci cj acc
  | c :: rest, ci, cj, acc =>
    if c.1.1 = ci ∧ c.1.2 = cj then mergeCoefs rest ci cj (acc + c.2)
    else mergeFlush ci cj acc ++ mergeCoefs rest c.1.1 c.1.2 c.2

/-- Run the merging scan seeded with the first sorted coefficient (lines 340-342). -/
def mergeAll : List IJV → List IJV
  | [] => []
  | c :: rest => mergeCoefs rest c.1.1 c.1.2 c.2

/-- `prepare_system`: append the diagonal seeds to the coefficient list as
diagonal entries, sort by (row, column), and merge duplicates.  The output is the
flat flush sequence; rows are recovered by `K_columns_of` / `K_values_of`. -/
def prepare_system (K_diag : List (ℕ × ℚ)) (K_coefs : List IJV) : List IJV :=
  mergeAll ((K_coefs ++ K_diag.map fun d => ((d.1, d.1), d.2)).insertionSort ijvLe)

/-- The column indices pushed into row `i` by `prepare_system`. -/
def K_columns_of (P : List IJV) (i : ℕ) : List ℕ :=
  (P.filter fun p => p.1.1 == i).map fun p => p.1.2

/-- The values pushed into row `i` by `prepare_system`. -/
def K_values_of (P : List IJV) (i : ℕ) : List ℚ :=
  (P.filter fun p => p.1.1 == i).map fun p => p.2

/-- The diagonal seeds accumulated by the assembly loop (lines 491-517): unit
entries for both unknowns of every edge; for a Dirichlet edge they come from the
Dirichlet branch (lines 508-510), otherwise from `stiffness_coefficient`. -/
def assembled_diag (n : ℕ) (dir : ℕ → Bool) : List (ℕ × ℚ) :=
  (List.range n).flatMap fun e =>
    if dir e then [(2 * e, 1), (2 * e + 1, 1)] else stiffness_iv e

/-- The off-diagonal coefficients accumulated by the assembly loop: only
non-Dirichlet edges contribute, through `stiffness_coefficient`. -/
def assembled_coefs (n : ℕ) (dir : ℕ → Bool) (bvars : ℕ → ℕ → ℕ)
    (crw cos4a sin4a : ℕ → ℕ → ℚ) : List IJV :=
  (List.range n).flatMap fun e =>
    if dir e then [] else stiffness_ijv e (bvars e) (crw e) (cos4a e) (sin4a e)

/-- The right-hand side built by the assembly loop: zero everywhere except the
Dirichlet pairs, set to `(1, 0)` (lines 509-511). -/
def rhs_of (n : ℕ) (dir : ℕ → Bool) : List ℚ :=
  (List.range (2 * n)).map fun i =>
    if dir (i / 2) then (if i % 2 = 0 then (1 : ℚ) else 0) else 0

/-- The per-row operator values of one diffusion iteration (lines 563-575): a
non-Dirichlet row scales the stiffness values by `dt / Mass[i]` and adds 1 on the
diagonal; a Dirichlet row is replaced by the single value list `{1.}`. -/
def rowVals (P : List IJV) (dir : ℕ → Bool) (Mass : ℕ → ℚ) (dt : ℚ) (i : ℕ) : List ℚ :=
  if dir (i / 2) then [1]
  else ((K_columns_of P i).zip (K_values_of P i)).map fun cv =>
    if cv.1 = i then 1 + dt / Mass i * cv.2 else dt / Mass i * cv.2

/-- The dot product of row `i` of the iteration operator with a vector. -/
def rowDot (P : List IJV) (dir : ℕ → Bool) (Mass : ℕ → ℚ) (dt : ℚ) (i : ℕ)
    (xsol : List ℚ) : ℚ :=
  ((K_columns_of P i).zip (rowVals P dir Mass dt i)).foldl
    (fun s cv => s + cv.2 * xsol.getD cv.1 0) 0

/-- The external solver contract: `xsol` is an exact solution of the sparse system
handed to `solve_sparse_linear_system` (columns `K_columns_of`, values `rowVals`,
right-hand side `B`). -/
def SolvesRows (n : ℕ) (P : List IJV) (dir : ℕ → Bool) (Mass : ℕ → ℚ) (dt : ℚ)
    (B xsol : List ℚ) : Prop :=
  ∀ i, i < 2 * n → rowDot P dir Mass dt i xsol = B.getD i 0

/-- The projection step (lines 588-595): every non-Dirichlet edge whose computed
norm exceeds `EPS` has its two components divided by that norm; Dirichlet edges
and tiny norms are left untouched.  The norms (square roots in the source) are
parameters. -/
def renormalize (n : ℕ) (dir : ℕ → Bool) (norms : ℕ → ℚ) (x : List ℚ) : List ℚ :=
  (List.range (2 * n)).map fun i =>
    if dir (i / 2) = false ∧ norms (i / 2) > EPS then x.getD i 0 / norms (i / 2)
    else x.getD i 0

/-- One iteration of the diffusion loop: the previous state is the right-hand
side `B = x`, the solver returns an exact solution, and the result is
renormalized. -/
def IterStep (n : ℕ) (P : List IJV) (dir : ℕ → Bool) (Mass : ℕ → ℚ) (dt : ℚ)
    (norms : ℕ → ℚ) (x xNext : List ℚ) : Prop :=
  ∃ xsol : List ℚ, SolvesRows n P dir Mass dt x xsol ∧ xNext = renormalize n dir norms xsol

/-- The Dirichlet flag as a total function (false beyond the table, matching the
loop bounds). -/
def dirichlet_flag (uIEdges : List id2) (u2o : List (List ℕ)) (lines : List id2) : ℕ → Bool :=
  fun e => (dirichlet_edges uIEdges u2o lines).getD e false

/-- The compacted stiffness system of `compute_cross_field_with_heat`: the
assembled diagonal seeds and coefficients, handed to `prepare_system`. -/
def cross_field_matrix (n : ℕ) (dir : ℕ → Bool) (bvars : ℕ → ℕ → ℕ)
    (crw cos4a sin4a : ℕ → ℕ → ℚ) : List IJV :=
  prepare_system (assembled_diag n dir) (assembled_coefs n dir bvars crw cos4a sin4a)

/-- `atan2(y, x)` modelled as the argument of the complex number `x + i y`
(range `(-pi, pi]`, `atan2(0,0) = 0`). -/
noncomputable def atan2 (y x : ℝ) : ℝ := Complex.arg ⟨x, y⟩

/-- The epsilon constant `EPS = 1.e-14` (modelled exactly), real version. -/
noncomputable def EPSr : ℝ := 1 / 10 ^ 14

/-- The per-edge angle of the field extractor (lines 607-608):
`theta = (len > EPS) ? 1./4*atan2(x[2e+1]/len, x[2e]/len) : 0`, with
`len = sqrt(x[2e]*x[2e] + x[2e+1]*x[2e+1])` written out. -/
noncomputable def extracted_angle (vx vy : ℝ) : ℝ :=
  if Real.sqrt (vx * vx + vy * vy) > EPSr then
    1 / 4 * atan2 (vy / Real.sqrt (vx * vx + vy * vy)) (vx / Real.sqrt (vx * vx + vy * vy))
  else 0

/-- The `edge_to_angle` map filling loop (lines 604-611): one entry per unique
edge, keyed by the ordered vertex pair, valued by the extracted angle. -/
noncomputable def fill_edge_to_angle (uIEdges : List id2) (x : ℕ → ℝ) : List (id2 × ℝ) :=
  (List.range uIEdges.length).map fun e =>
    (uIEdges.getD e (0, 0), extracted_angle (x (2 * e)) (x (2 * e + 1)))

/-- C1: the claim predicts real-division linear interpolation of the timestep.
The source divides a `size_t` by an `int`, i.e. truncating integer division, so
the timestep stays at `emax^2` for iterations 0..8 and jumps to `emin^2` at the
last iteration; with `emin = 1`, `emax = 2` the claimed value at iteration 1 is
`11/3`, but the code computes 4. -/
theorem C1_dt_uses_integer_division :
    dt_of 1 2 10 0 = 4 ∧ dt_of 1 2 10 1 = 4 ∧ dt_of 1 2 10 8 = 4 ∧ dt_of 1 2 10 9 = 1 ∧
    (2 * 2 + (1 * 1 - 2 * 2) * ((1 : ℚ) / (10 - 1)) ≠ 4) := by
  refine ⟨?_, ?_, ?_, ?_, ?_⟩ <;> norm_num [dt_of, dt_schedule]

/-- C2: the diffusion loop runs its body exactly 10 times, and its entire result
is independent of the caller-supplied `nbIter` argument. -/
theorem C2_iteration_count_fixed {St : Type} (nbIter nbIter2 : ℤ) (body : ℕ → St → St)
    (x0 : St) :
    (heat_diffusion_loop nbIter body x0).2 = 10 ∧
    heat_diffusion_loop nbIter body x0 = heat_diffusion_loop nbIter2 body x0 :=
  ⟨rfl, rfl⟩

/-- A concrete one-triangle mesh used to instantiate the diffusion-loop
theorems. -/
def demoTriangles : List id3 := [(0, 1, 2)]

/-- The adjacency result of the one-triangle mesh: three boundary unique edges. -/
def demoAdj : AdjResult :=
  ⟨[[(NO_ID : ℤ), (NO_ID : ℤ), (NO_ID : ℤ)]], [], [(0, 1), (0, 2), (1, 2)], [0, 2, 1],
    [[0], [2], [1]]⟩

/-- The all-Dirichlet state vector `(1,0,1,0,1,0)` of the one-triangle mesh. -/
def demoState : List ℚ := [1, 0, 1, 0, 1, 0]

/-- If some element of the index list sends every state to `none`, the whole
monadic fold over `Option` fails. -/
theorem foldlM_eq_none {σ ι : Type} (step : σ → ι → Option σ) (i : ι)
    (hstep : ∀ st, step st i = none) :
    ∀ (l : List ι) (init : σ), i ∈ l → l.foldlM step init = none := by
  intro l
  induction l with
  | nil =>
    intro init h
    cases h
  | cons a t ih =>
    intro init h
    rw [List.foldlM_cons]
    rcases List.mem_cons.mp h with rfl | hmem
    · rw [hstep init]
      rfl
    · cases ha : step init a with
      | none => rfl
      | some st2 => exact ih st2 hmem

/-- The adjacency loop fails as soon as it reaches a unique edge with a sentinel
component that is not the all-sentinel pair. -/
theorem adjacency_loop_none (u : List id2) (u2o : List (List ℕ))
    (init : List (List ℤ) × List (List ℕ)) (p : id2) (hp : p ∈ u)
    (hsent : p.1 = NO_ID ∨ p.2 = NO_ID) (hne : p ≠ (NO_ID, NO_ID)) :
    (List.range u.length).foldlM (adjStep u u2o) init = none := by
  obtain ⟨i, hi, hgeti⟩ := List.getElem_of_mem hp
  have hgetD : u.getD i (0, 0) = p := by
    rw [List.getD_eq_getElem?_getD, List.getElem?_eq_getElem hi, Option.getD_some, hgeti]
  refine foldlM_eq_none _ i ?_ _ init (List.mem_range.mpr hi)
  intro st
  simp only [adjStep]
  rw [hgetD, if_neg hne]
  by_cases hp1 : p.1 = NO_ID
  · rw [if_pos hp1]
  · rw [if_neg hp1, if_pos (hsent.resolve_left hp1)]

/-- On success, the unique-edge output of `compute_triangle_adjacencies` is the
sorted deduplicated face list. -/
theorem uIEdges_of_some (triangles : List id3) (r : AdjResult)
    (h : compute_triangle_adjacencies triangles = some r) :
    r.uIEdges = uIEdgesOf triangles := by
  unfold uIEdgesOf
  simp only [compute_triangle_adjacencies] at h
  split at h
  · exact absurd h (by simp)
  · cases h
    rfl

/-- C4 amended: the adjacency builder fails on any unique edge with a sentinel
component, except the pair whose two components are both the sentinel, which the
loop skips without error. -/
theorem C4_sentinel_edge_detected (triangles : List id3) (p : id2)
    (hp : p ∈ uIEdgesOf triangles) (hsent : p.1 = NO_ID ∨ p.2 = NO_ID)
    (hne : p ≠ (NO_ID, NO_ID)) :
    compute_triangle_adjacencies triangles = none := by
  unfold uIEdgesOf at hp
  have hloop := adjacency_loop_none (sort_unique_with_perm (facesOf triangles)).1
    (uIEdgeToOldOf (facesOf triangles) (sort_unique_with_perm (facesOf triangles)).2
      (sort_unique_with_perm (facesOf triangles)).1.length)
    (List.replicate triangles.length [(NO_ID : ℤ), (NO_ID : ℤ), (NO_ID : ℤ)],
     ([] : List (List ℕ)))
    p hp hsent hne
  simp only [compute_triangle_adjacencies, hloop]

/-- C4 witness: the mesh with one triangle `(1, NO_ID, NO_ID)` produces the
sentinel-containing unique edge `(1, NO_ID)` and the builder fails on it. -/
theorem C4_sentinel_edge_detected_witness :
    (((1 : ℕ), NO_ID) ∈ uIEdgesOf [(1, NO_ID, NO_ID)]) ∧
    compute_triangle_adjacencies [(1, NO_ID, NO_ID)] = none := by
  have hp : ((1 : ℕ), NO_ID) ∈ uIEdgesOf [(1, NO_ID, NO_ID)] := by decide
  exact ⟨hp, C4_sentinel_edge_detected _ _ hp (Or.inr rfl) (by decide)⟩

/-- C4 counterexample: the unique edge both of whose components are the sentinel
is skipped by the loop (`continue`), so the claim that every sentinel-containing
pair, including the all-sentinel one, makes the builder return false is wrong:
on the all-sentinel triangle the builder succeeds. -/
theorem C4_all_sentinel_edge_not_detected :
    ((NO_ID, NO_ID) ∈ uIEdgesOf [(NO_ID, NO_ID, NO_ID)]) ∧
    compute_triangle_adjacencies [(NO_ID, NO_ID, NO_ID)] ≠ none := by decide

/-- C5 counterexample: the single-triangle mesh has three unique edges, all with
occurrence count one, hence zero interior edges; the adjacency build succeeds and
the `no internal edges` failure does not trigger, because the code tests
`uIEdges.size() == 0` (all unique edges), not the interior-edge count. -/
theorem C5_zero_interior_edges_not_rejected :
    ((uIEdgeToOldAll [(0, 1, 2)]).filter fun l => l.length == 2).length = 0 ∧
    compute_triangle_adjacencies [(0, 1, 2)] ≠ none ∧
    no_internal_edges_failure [(0, 1, 2)] = false := by decide

/-- C5 amended: the `no internal edges` failure triggers exactly when the
unique-edge list is empty, which happens exactly when the triangle list is
empty; a nonempty mesh whose unique edges are all boundary (zero interior
edges) is not rejected by this check. -/
theorem C5_failure_iff_no_triangles (triangles : List id3) :
    no_internal_edges_failure triangles = true ↔ triangles = [] := by
  constructor
  · intro h
    cases triangles with
    | nil => rfl
    | cons t ts =>
      exfalso
      unfold no_internal_edges_failure at h
      cases hc : compute_triangle_adjacencies (t :: ts) with
      | none =>
        rw [hc] at h
        simp at h
      | some r =>
        rw [hc] at h
        simp only [beq_iff_eq] at h
        have hu := uIEdges_of_some _ _ hc
        rw [hu] at h
        unfold uIEdgesOf sort_unique_with_perm at h
        simp only at h
        have hd : ((facesOf (t :: ts)).insertionSort id2Le).dedup = [] :=
          List.length_eq_zero.mp h
        have hs : (facesOf (t :: ts)).insertionSort id2Le = [] :=
          (List.dedup_eq_nil _).mp hd
        have hperm := List.perm_insertionSort id2Le (facesOf (t :: ts))
        rw [hs] at hperm
        have : facesOf (t :: ts) = [] := hperm.symm.eq_nil
        simp [facesOf, triangleFaces] at this
  · intro h
    subst h
    rfl

/-- C7 counterexample: in the synthetic mesh of three triangles sharing the edge
`(0, 1)` (three occurrences, face positions 0, 3, 6), the non-manifold neighbor
list holds three entries, one per occurrence, each of size 2 (the sibling
occurrences); no entry of size 3 exists. -/
theorem C7_no_size_three_entry :
    (uIEdgeToOldAll [(0, 1, 2), (0, 1, 3), (0, 1, 4)]).getD 0 [] = [0, 3, 6] ∧
    nmOf [(0, 1, 2), (0, 1, 3), (0, 1, 4)] = [[3, 6], [0, 6], [0, 3]] ∧
    ¬ (∃ l ∈ nmOf [(0, 1, 2), (0, 1, 3), (0, 1, 4)], l.length = 3) := by decide

/-- C7 amended: in the synthetic three-triangles-on-one-edge mesh, the shared
unique edge `(0, 1)` (index 0, occurrences 0, 3, 6) resolves to three
non-manifold neighbor-list entries, each listing the 2 sibling occurrences, and
the three triangles' local slots hold the distinct negative encodings -1, -2, -3
(references to entries 0, 1, 2 of the list). -/
theorem C7_nonmanifold_three_entries :
    (uIEdgesOf [(0, 1, 2), (0, 1, 3), (0, 1, 4)]).getD 0 (0, 0) = (0, 1) ∧
    (uIEdgeToOldAll [(0, 1, 2), (0, 1, 3), (0, 1, 4)]).getD 0 [] = [0, 3, 6] ∧
    tnOf [(0, 1, 2), (0, 1, 3), (0, 1, 4)] =
      [[-1, (NO_ID : ℤ), (NO_ID : ℤ)], [-2, (NO_ID : ℤ), (NO_ID : ℤ)],
       [-3, (NO_ID : ℤ), (NO_ID : ℤ)]] ∧
    nmOf [(0, 1, 2), (0, 1, 3), (0, 1, 4)] = [[3, 6], [0, 6], [0, 3]] ∧
    (∀ l ∈ nmOf [(0, 1, 2), (0, 1, 3), (0, 1, 4)], l.length = 2) := by decide

/-- The line-marking pass of `dirichlet_edges` only ever sets flags to true, so a
flag that is false after the pass was false before it. -/
theorem lines_fold_preserves_false (uIEdges : List id2) (lines : List id2) (d : List Bool)
    (e : ℕ)
    (h : (lines.foldl (fun d2 l =>
        match uIEdges.findIdx? (fun p => p == sortedPair l.1 l.2) with
        | some e2 => d2.set e2 true
        | none => d2) d).getD e false = false) :
    d.getD e false = false := by
  induction lines generalizing d with
  | nil => exact h
  | cons l ls ih =>
    rw [List.foldl_cons] at h
    revert h
    cases hf : uIEdges.findIdx? (fun p => p == sortedPair l.1 l.2) with
    | none =>
      intro h
      exact ih _ h
    | some e2 =>
      intro h
      have h2 := ih _ h
      dsimp only at h2
      by_cases he : e = e2
      · subst he
        by_cases hlt : e < d.length
        · rw [List.getD_eq_getElem?_getD, List.getElem?_set_self hlt] at h2
          exact absurd h2 (by simp)
        · rw [List.getD_eq_getElem?_getD, List.getElem?_eq_none
            (by rw [List.length_set]; omega)] at h2
          rw [List.getD_eq_getElem?_getD, List.getElem?_eq_none (by omega)]
          exact h2
      · rwa [List.getD_eq_getElem?_getD, List.getElem?_set_ne (Ne.symm he),
          ← List.getD_eq_getElem?_getD] at h2

/-- The line-marking pass of `dirichlet_edges` preserves flags that are already
true. -/
theorem lines_fold_preserves_true (uIEdges : List id2) (lines : List id2) (d : List Bool)
    (e : ℕ) (h : d.getD e false = true) :
    (lines.foldl (fun d2 l =>
        match uIEdges.findIdx? (fun p => p == sortedPair l.1 l.2) with
        | some e2 => d2.set e2 true
        | none => d2) d).getD e false = true := by
  induction lines generalizing d with
  | nil => exact h
  | cons l ls ih =>
    rw [List.foldl_cons]
    apply ih
    cases hf : uIEdges.findIdx? (fun p => p == sortedPair l.1 l.2) with
    | none => exact h
    | some e2 =>
      dsimp only
      by_cases he : e = e2
      · subst he
        by_cases hlt : e < d.length
        · rw [List.getD_eq_getElem?_getD, List.getElem?_set_self hlt]
          rfl
        · rw [List.getD_eq_getElem?_getD, List.getElem?_eq_none
            (by rw [List.length_set]; omega)]
          rwa [List.getD_eq_getElem?_getD, List.getElem?_eq_none (by omega)] at h
      · rwa [List.getD_eq_getElem?_getD, List.getElem?_set_ne (Ne.symm he),
          ← List.getD_eq_getElem?_getD]

/-- C9: every unique edge whose occurrence count differs from 2 is flagged
Dirichlet before assembly, and conversely an edge the assembly loop hands to
`stiffness_coefficient` (flag false) has exactly two occurrences, so the
occurrence-count error branch of `stiffness_coefficient` cannot fire there. -/
theorem C9_dirichlet_covers_nonregular (uIEdges : List id2) (u2o : List (List ℕ))
    (lines : List id2) (e : ℕ) (he : e < uIEdges.length) :
    ((u2o.getD e []).length ≠ 2 →
      (dirichlet_edges uIEdges u2o lines).getD e false = true) ∧
    ((dirichlet_edges uIEdges u2o lines).getD e false = false →
      stiffness_occurrence_ok (u2o.getD e []) = true) := by
  have hd0 : ((List.range uIEdges.length).map fun e2 =>
      (u2o.getD e2 []).length != 2).getD e false = ((u2o.getD e []).length != 2) := by
    rw [List.getD_eq_getElem?_getD, List.getElem?_map, List.getElem?_range he]
    rfl
  constructor
  · intro hne
    unfold dirichlet_edges
    apply lines_fold_preserves_true
    rw [hd0]
    exact bne_iff_ne.mpr hne
  · intro hfalse
    unfold dirichlet_edges at hfalse
    have h2 := lines_fold_preserves_false _ _ _ _ hfalse
    rw [hd0] at h2
    unfold stiffness_occurrence_ok
    have : (u2o.getD e []).length = 2 := by
      by_contra hne
      rw [bne_iff_ne.mpr hne] at h2
      exact absurd h2 (by simp)
    exact beq_iff_eq.mpr this

/-- C9 witness: in a table with two unique edges, occurrences `[0]` and `[1,4]`,
and no line elements, edge 0 (one occurrence) is flagged Dirichlet. -/
theorem C9_dirichlet_covers_nonregular_witness :
    ((0 : ℕ) < ([((0 : ℕ), (1 : ℕ)), (2, 3)] : List id2).length) ∧
    ((([[0], [1, 4]] : List (List ℕ)).getD 0 []).length ≠ 2) ∧
    (dirichlet_edges [(0, 1), (2, 3)] [[0], [1, 4]] []).getD 0 false = true := by
  have he : (0 : ℕ) < ([((0 : ℕ), (1 : ℕ)), (2, 3)] : List id2).length := by norm_num
  have h := (C9_dirichlet_covers_nonregular [(0, 1), (2, 3)] [[0], [1, 4]] [] 0 he).1
  exact ⟨he, by decide, h (by decide)⟩

/-- A flush whose key row differs from `r` contributes nothing to row `r`. -/
theorem mergeFlush_filter_ne (r ci cj : ℕ) (acc : ℚ) (hci : ci ≠ r) :
    (mergeFlush ci cj acc).filter (fun p => p.1.1 == r) = [] := by
  unfold mergeFlush
  split <;> simp [hci]

/-- A flush at row `r` with a surviving accumulator is kept at row `r`. -/
theorem mergeFlush_filter_self (r cj : ℕ) (acc : ℚ) (hacc : |acc| > EPS) :
    (mergeFlush r cj acc).filter (fun p => p.1.1 == r) = [((r, cj), acc)] := by
  unfold mergeFlush
  rw [if_pos hacc]
  simp

/-- If neither the accumulator key nor any remaining coefficient is at row `r`,
the merging scan emits nothing at row `r`. -/
theorem mergeCoefs_filter_none (r : ℕ) :
    ∀ (l : List IJV) (ci cj : ℕ) (acc : ℚ), ci ≠ r → (∀ c ∈ l, c.1.1 ≠ r) →
      (mergeCoefs l ci cj acc).filter (fun p => p.1.1 == r) = [] := by
  intro l
  induction l with
  | nil =>
    intro ci cj acc hci _
    exact mergeFlush_filter_ne r ci cj acc hci
  | cons c rest ih =>
    intro ci cj acc hci hl
    unfold mergeCoefs
    split
    · exact ih ci cj _ hci fun c2 h2 => hl c2 (List.mem_cons_of_mem _ h2)
    · rw [List.filter_append, mergeFlush_filter_ne r ci cj acc hci, List.nil_append]
      exact ih c.1.1 c.1.2 c.2 (hl c (List.mem_cons_self c rest))
        fun c2 h2 => hl c2 (List.mem_cons_of_mem _ h2)

/-- If the accumulator key is at row `r` with a surviving value and no remaining
coefficient is at row `r`, exactly that flush appears at row `r`. -/
theorem mergeCoefs_filter_acc (r cj : ℕ) (w : ℚ) (hw : |w| > EPS) :
    ∀ (l : List IJV), (∀ c ∈ l, c.1.1 ≠ r) →
      (mergeCoefs l r cj w).filter (fun p => p.1.1 == r) = [((r, cj), w)] := by
  intro l hl
  cases l with
  | nil => exact mergeFlush_filter_self r cj w hw
  | cons c rest =>
    unfold mergeCoefs
    rw [if_neg (by rintro ⟨h1, -⟩; exact hl c (List.mem_cons_self c rest) h1)]
    rw [List.filter_append, mergeFlush_filter_self r cj w hw,
      mergeCoefs_filter_none r rest c.1.1 c.1.2 c.2
        (hl c (List.mem_cons_self c rest))
        (fun c2 h2 => hl c2 (List.mem_cons_of_mem _ h2)),
      List.append_nil]

/-- The single row-`r` coefficient `((r,r),w)` in the remaining list passes
through the merging scan unchanged, provided the accumulator key is at another
row. -/
theorem mergeCoefs_filter_single (r : ℕ) (w : ℚ) (hw : |w| > EPS) :
    ∀ (l : List IJV) (ci cj : ℕ) (acc : ℚ), ci ≠ r →
      l.filter (fun p => p.1.1 == r) = [((r, r), w)] →
      (mergeCoefs l ci cj acc).filter (fun p => p.1.1 == r) = [((r, r), w)] := by
  intro l
  induction l with
  | nil =>
    intro ci cj acc hci hf
    simp at hf
  | cons c rest ih =>
    intro ci cj acc hci hf
    unfold mergeCoefs
    by_cases hg : c.1.1 = ci ∧ c.1.2 = cj
    · rw [if_pos hg]
      apply ih ci cj _ hci
      rwa [List.filter_cons, if_neg (by simp [hg.1, hci])] at hf
    · rw [if_neg hg, List.filter_append, mergeFlush_filter_ne r ci cj acc hci,
        List.nil_append]
      by_cases hcr : c.1.1 = r
      · rw [List.filter_cons, if_pos (by simp [hcr])] at hf
        have hcf : c = ((r, r), w) ∧ rest.filter (fun p => p.1.1 == r) = [] := by
          simpa using hf
        obtain ⟨hc, hrest⟩ := hcf
        rw [hc]
        exact mergeCoefs_filter_acc r r w hw rest (by
          intro c2 h2
          have h3 := List.filter_eq_nil_iff.mp hrest c2 h2
          simpa using h3)
      · rw [List.filter_cons, if_neg (by simp [hcr])] at hf
        exact ih c.1.1 c.1.2 c.2 hcr hf

/-- If the flat coefficient list filtered at row `r` is the single surviving
entry `((r,r),w)`, the merged output filtered at row `r` is that entry too. -/
theorem mergeAll_row_single (L : List IJV) (r : ℕ) (w : ℚ) (hw : |w| > EPS)
    (hf : L.filter (fun p => p.1.1 == r) = [((r, r), w)]) :
    (mergeAll L).filter (fun p => p.1.1 == r) = [((r, r), w)] := by
  cases L with
  | nil => simp at hf
  | cons c rest =>
    unfold mergeAll
    by_cases hcr : c.1.1 = r
    · rw [List.filter_cons, if_pos (by simp [hcr])] at hf
      have hcf : c = ((r, r), w) ∧ rest.filter (fun p => p.1.1 == r) = [] := by
        simpa using hf
      obtain ⟨hc, hrest⟩ := hcf
      rw [hc]
      exact mergeCoefs_filter_acc r r w hw rest (by
        intro c2 h2
        have h3 := List.filter_eq_nil_iff.mp hrest c2 h2
        simpa using h3)
    · rw [List.filter_cons, if_neg (by simp [hcr])] at hf
      exact mergeCoefs_filter_single r w hw rest c.1.1 c.1.2 c.2 hcr hf

/-- A `flatMap` over `range n` whose function is empty except at one index. -/
theorem flatMap_range_single {β : Type} (f : ℕ → List β) (n e : ℕ) (he : e < n)
    (hother : ∀ j, j ≠ e → f j = []) :
    (List.range n).flatMap f = f e := by
  induction n with
  | zero => omega
  | succ m ih =>
    rw [List.range_succ, List.flatMap_append]
    by_cases hem : e = m
    · subst hem
      rw [List.flatMap_eq_nil_iff.mpr fun j hj => hother j (by
          have := List.mem_range.mp hj
          omega), List.nil_append]
      simp
    · rw [ih (by omega), show ([m].flatMap f) = f m by simp, hother m (by omega),
        List.append_nil]

/-- Both branches of the assembly diagonal push the same two unit seeds. -/
theorem assembled_diag_eq (n : ℕ) (dir : ℕ → Bool) :
    assembled_diag n dir
      = (List.range n).flatMap fun e => [(2 * e, (1 : ℚ)), (2 * e + 1, 1)] := by
  unfold assembled_diag
  have hfg : (fun e => if dir e then [(2 * e, (1 : ℚ)), (2 * e + 1, 1)] else stiffness_iv e)
      = fun e => [(2 * e, (1 : ℚ)), (2 * e + 1, 1)] := by
    funext e
    split <;> rfl
  rw [hfg]

/-- Every coefficient assembled from the stiffness blocks lies in a row owned by
a non-Dirichlet edge. -/
theorem assembled_coefs_rows (n : ℕ) (dir : ℕ → Bool) (bvars : ℕ → ℕ → ℕ)
    (crw cos4a sin4a : ℕ → ℕ → ℚ) (p : IJV)
    (hp : p ∈ assembled_coefs n dir bvars crw cos4a sin4a) :
    dir (p.1.1 / 2) = false := by
  unfold assembled_coefs at hp
  obtain ⟨e, he, hpe⟩ := List.mem_flatMap.mp hp
  cases hdir : dir e with
  | true =>
    rw [hdir] at hpe
    simp at hpe
  | false =>
    rw [hdir] at hpe
    simp only [if_false, Bool.false_eq_true] at hpe
    unfold stiffness_ijv at hpe
    obtain ⟨j, hj, hpj⟩ := List.mem_flatMap.mp hpe
    have hrow : p.1.1 = 2 * e ∨ p.1.1 = 2 * e + 1 := by
      simp only [List.mem_cons, List.not_mem_nil, or_false] at hpj
      rcases hpj with rfl | rfl | rfl | rfl <;> simp
    rcases hrow with h | h
    · rw [h, show (2 * e) / 2 = e by omega, hdir]
    · rw [h, show (2 * e + 1) / 2 = e by omega, hdir]

/-- Filtering the diagonal seeds at one of a Dirichlet edge's two rows keeps
exactly the unit diagonal entry of that row. -/
theorem diag_filter_row (n : ℕ) (e : ℕ) (he : e < n) (i0 : ℕ)
    (hi : i0 = 2 * e ∨ i0 = 2 * e + 1) (dir : ℕ → Bool) :
    ((assembled_diag n dir).map fun d => ((d.1, d.1), d.2)).filter
      (fun p => p.1.1 == i0) = [((i0, i0), (1 : ℚ))] := by
  rw [assembled_diag_eq, List.map_flatMap, List.filter_flatMap]
  rw [flatMap_range_single _ n e he ?hother]
  · rcases hi with rfl | rfl
    · simp only [List.map_cons, List.map_nil, List.filter_cons, List.filter_nil]
      rw [if_pos (by simp only [beq_iff_eq]), if_neg (by simp only [beq_iff_eq]; omega)]
    · simp only [List.map_cons, List.map_nil, List.filter_cons, List.filter_nil]
      rw [if_neg (by simp only [beq_iff_eq]; omega), if_pos (by simp only [beq_iff_eq])]
  case hother =>
    intro j hj
    rcases hi with rfl | rfl <;>
    · simp only [List.map_cons, List.map_nil, List.filter_cons, List.filter_nil]
      rw [if_neg (by simp only [beq_iff_eq]; omega), if_neg (by simp only [beq_iff_eq]; omega)]

/-- The full coefficient list of the system, filtered at one of a Dirichlet
edge's two rows, is the single unit diagonal entry of that row. -/
theorem coefs_filter_dirichlet_row (n : ℕ) (dir : ℕ → Bool) (bvars : ℕ → ℕ → ℕ)
    (crw cos4a sin4a : ℕ → ℕ → ℚ) (e : ℕ) (he : e < n) (hd : dir e = true) (i0 : ℕ)
    (hi : i0 = 2 * e ∨ i0 = 2 * e + 1) :
    (assembled_coefs n dir bvars crw cos4a sin4a ++
        (assembled_diag n dir).map fun d => ((d.1, d.1), d.2)).filter
      (fun p => p.1.1 == i0) = [((i0, i0), (1 : ℚ))] := by
  rw [List.filter_append, diag_filter_row n e he i0 hi dir]
  rw [List.filter_eq_nil_iff.mpr ?hc, List.nil_append]
  case hc =>
    intro p hp hbeq
    have hrow := assembled_coefs_rows n dir bvars crw cos4a sin4a p hp
    have hpi : p.1.1 = i0 := by simpa using hbeq
    rw [hpi, show i0 / 2 = e from by rcases hi with rfl | rfl <;> omega, hd] at hrow
    cases hrow

/-- At one of a Dirichlet edge's two rows, the compacted system holds the single
column entry `i0`: the isolated unit diagonal survives compaction. -/
theorem K_columns_dirichlet (n : ℕ) (dir : ℕ → Bool) (bvars : ℕ → ℕ → ℕ)
    (crw cos4a sin4a : ℕ → ℕ → ℚ) (e : ℕ) (he : e < n) (hd : dir e = true) (i0 : ℕ)
    (hi : i0 = 2 * e ∨ i0 = 2 * e + 1) :
    K_columns_of (cross_field_matrix n dir bvars crw cos4a sin4a) i0 = [i0] := by
  have hw : |(1 : ℚ)| > EPS := by norm_num [EPS]
  have hperm := List.Perm.filter (fun p => p.1.1 == i0)
    (List.perm_insertionSort ijvLe
      (assembled_coefs n dir bvars crw cos4a sin4a ++
        (assembled_diag n dir).map fun d => ((d.1, d.1), d.2)))
  rw [coefs_filter_dirichlet_row n dir bvars crw cos4a sin4a e he hd i0 hi] at hperm
  have hf := List.perm_singleton.mp hperm
  unfold cross_field_matrix prepare_system K_columns_of
  rw [mergeAll_row_single _ i0 1 hw hf]
  rfl

/-- At a Dirichlet row with the isolated unit diagonal, the row dot product is
the solution component itself. -/
theorem rowDot_dirichlet (P : List IJV) (dir : ℕ → Bool) (Mass : ℕ → ℚ) (dt : ℚ)
    (i : ℕ) (xsol : List ℚ) (hdir : dir (i / 2) = true)
    (hcols : K_columns_of P i = [i]) :
    rowDot P dir Mass dt i xsol = xsol.getD i 0 := by
  unfold rowDot rowVals
  rw [hcols, if_pos hdir]
  simp [List.foldl]

/-- The projection step leaves both components of a Dirichlet edge unchanged. -/
theorem renormalize_dirichlet (n : ℕ) (dir : ℕ → Bool) (norms : ℕ → ℚ) (x : List ℚ)
    (i : ℕ) (hi : i < 2 * n) (hdir : dir (i / 2) = true) :
    (renormalize n dir norms x).getD i 0 = x.getD i 0 := by
  unfold renormalize
  rw [List.getD_eq_getElem?_getD, List.getElem?_map, List.getElem?_range hi]
  simp only [Option.map_some', Option.getD_some]
  rw [if_neg]
  rintro ⟨h1, -⟩
  rw [hdir] at h1
  cases h1

/-- The right-hand side pins a Dirichlet edge's pair to `(1, 0)`. -/
theorem rhs_of_dirichlet (n : ℕ) (dir : ℕ → Bool) (e : ℕ) (he : e < n)
    (hd : dir e = true) :
    (rhs_of n dir).getD (2 * e) 0 = 1 ∧ (rhs_of n dir).getD (2 * e + 1) 0 = 0 := by
  unfold rhs_of
  constructor
  · rw [List.getD_eq_getElem?_getD, List.getElem?_map,
      List.getElem?_range (show 2 * e < 2 * n by omega)]
    simp [show 2 * e / 2 = e by omega, hd, show (2 * e) % 2 = 0 by omega]
  · rw [List.getD_eq_getElem?_getD, List.getElem?_map,
      List.getElem?_range (show 2 * e + 1 < 2 * n by omega)]
    simp [show (2 * e + 1) / 2 = e by omega, hd, show (2 * e + 1) % 2 = 1 by omega]

/-- C6 counterexample: the extracted angle is not normalized into `[0, 2*pi)`.
For the converged vector `(0, -1)` the extractor returns
`1/4 * atan2(-1, 0) = -pi/8 < 0`. -/
theorem C6_angle_not_in_claimed_range :
    ¬ (0 ≤ extracted_angle 0 (-1) ∧ extracted_angle 0 (-1) < 2 * Real.pi) := by
  have hlen : Real.sqrt ((0 : ℝ) * 0 + (-1) * (-1)) = 1 := by norm_num
  have hval : extracted_angle 0 (-1) = -(Real.pi / 8) := by
    unfold extracted_angle atan2
    rw [hlen]
    rw [if_pos (by norm_num [EPSr])]
    have hz : (⟨(0 : ℝ) / 1, (-1 : ℝ) / 1⟩ : ℂ) = -Complex.I := by
      apply Complex.ext <;> simp
    rw [hz, Complex.arg_neg_I]
    ring
  rintro ⟨h0, -⟩
  rw [hval] at h0
  have := Real.pi_pos
  linarith

/-- C6 amended: the extracted angle equals `atan2` of the normalized converged
vector divided by 4 when the magnitude exceeds `EPS` (and 0 otherwise), and it
always lies in `(-pi/4, pi/4]`, not in `[0, 2*pi)`. -/
theorem C6_angle_in_quarter_range (vx vy : ℝ) :
    -(Real.pi / 4) < extracted_angle vx vy ∧ extracted_angle vx vy ≤ Real.pi / 4 := by
  have hpi := Real.pi_pos
  unfold extracted_angle atan2
  split
  · constructor
    · have h1 := Complex.neg_pi_lt_arg
        ⟨vx / Real.sqrt (vx * vx + vy * vy), vy / Real.sqrt (vx * vx + vy * vy)⟩
      linarith
    · have h2 := Complex.arg_le_pi
        (⟨vx / Real.sqrt (vx * vx + vy * vy), vy / Real.sqrt (vx * vx + vy * vy)⟩ : ℂ)
      linarith
  · constructor <;> linarith

/-- C8: whenever the four raw Crouzeix-Raviart weights `-2/tan(agl)` have a
nonzero total, the four normalized weights (each raw weight divided by the
negated total) sum to exactly -1 in exact real arithmetic. -/
theorem C8_normalized_weights_sum_minus_one (a0 a1 a2 a3 : ℝ)
    (h : CR_raw_weight a0 + CR_raw_weight a1 + CR_raw_weight a2 + CR_raw_weight a3 ≠ 0) :
    (CR_normalized_weights (CR_raw_weight a0) (CR_raw_weight a1) (CR_raw_weight a2)
        (CR_raw_weight a3)).1 +
      (CR_normalized_weights (CR_raw_weight a0) (CR_raw_weight a1) (CR_raw_weight a2)
        (CR_raw_weight a3)).2.1 +
      (CR_normalized_weights (CR_raw_weight a0) (CR_raw_weight a1) (CR_raw_weight a2)
        (CR_raw_weight a3)).2.2.1 +
      (CR_normalized_weights (CR_raw_weight a0) (CR_raw_weight a1) (CR_raw_weight a2)
        (CR_raw_weight a3)).2.2.2 = -1 := by
  unfold CR_normalized_weights
  rw [div_add_div_same, div_add_div_same, div_add_div_same, neg_one_mul, div_neg, div_self h]

/-- C8 witness: at four right-angle-quarter angles `pi/4` the raw weights are all
-2, the total -8 is nonzero, and the normalized weights sum to -1. -/
theorem C8_normalized_weights_sum_witness :
    (CR_raw_weight (Real.pi / 4) + CR_raw_weight (Real.pi / 4) + CR_raw_weight (Real.pi / 4) +
        CR_raw_weight (Real.pi / 4) ≠ 0) ∧
    (CR_normalized_weights (CR_raw_weight (Real.pi / 4)) (CR_raw_weight (Real.pi / 4))
        (CR_raw_weight (Real.pi / 4)) (CR_raw_weight (Real.pi / 4))).1 +
      (CR_normalized_weights (CR_raw_weight (Real.pi / 4)) (CR_raw_weight (Real.pi / 4))
        (CR_raw_weight (Real.pi / 4)) (CR_raw_weight (Real.pi / 4))).2.1 +
      (CR_normalized_weights (CR_raw_weight (Real.pi / 4)) (CR_raw_weight (Real.pi / 4))
        (CR_raw_weight (Real.pi / 4)) (CR_raw_weight (Real.pi / 4))).2.2.1 +
      (CR_normalized_weights (CR_raw_weight (Real.pi / 4)) (CR_raw_weight (Real.pi / 4))
        (CR_raw_weight (Real.pi / 4)) (CR_raw_weight (Real.pi / 4))).2.2.2 = -1 := by
  have hw : CR_raw_weight (Real.pi / 4) = -2 := by
    unfold CR_raw_weight
    rw [Real.tan_pi_div_four]
    norm_num
  have h : CR_raw_weight (Real.pi / 4) + CR_raw_weight (Real.pi / 4) +
      CR_raw_weight (Real.pi / 4) + CR_raw_weight (Real.pi / 4) ≠ 0 := by
    rw [hw]
    norm_num
  exact ⟨h, C8_normalized_weights_sum_minus_one _ _ _ _ h⟩

/-- C10: the `edge_to_angle` map gets exactly one entry per unique edge, and an
edge whose final 2-vector has magnitude at or below `EPS` is reported with the
angle exactly 0 rather than omitted. -/
theorem C10_degenerate_edge_angle_zero (uIEdges : List id2) (x : ℕ → ℝ) (e : ℕ)
    (he : e < uIEdges.length)
    (hm : Real.sqrt (x (2 * e) * x (2 * e) + x (2 * e + 1) * x (2 * e + 1)) ≤ EPSr) :
    (fill_edge_to_angle uIEdges x).length = uIEdges.length ∧
    (fill_edge_to_angle uIEdges x).getD e ((0, 0), 1) = (uIEdges.getD e (0, 0), 0) := by
  constructor
  · unfold fill_edge_to_angle
    rw [List.length_map, List.length_range]
  · have h0 : extracted_angle (x (2 * e)) (x (2 * e + 1)) = 0 := by
      unfold extracted_angle
      rw [if_neg (not_lt.mpr hm)]
    unfold fill_edge_to_angle
    rw [List.getD_eq_getElem?_getD, List.getElem?_map, List.getElem?_range he]
    simp [h0]

/-- C10 witness: a single edge with the all-zero state vector has magnitude 0
below `EPS` and receives the entry `((0,1), 0)`. -/
theorem C10_degenerate_edge_angle_zero_witness :
    ((0 : ℕ) < [((0 : ℕ), (1 : ℕ))].length) ∧
    (Real.sqrt ((0 : ℝ) * 0 + 0 * 0) ≤ EPSr) ∧
    ((fill_edge_to_angle [(0, 1)] fun _ => (0 : ℝ)).length = 1 ∧
     (fill_edge_to_angle [(0, 1)] fun _ => (0 : ℝ)).getD 0 ((0, 0), 1) = ((0, 1), 0)) := by
  have h1 : (0 : ℕ) < [((0 : ℕ), (1 : ℕ))].length := by norm_num
  have h2 : Real.sqrt ((0 : ℝ) * 0 + 0 * 0) ≤ EPSr := by
    norm_num [EPSr, Real.sqrt_zero]
  exact ⟨h1, h2, C10_degenerate_edge_angle_zero [(0, 1)] (fun _ => 0) 0 h1 h2⟩

/-- C3: Dirichlet pinning invariant.  For every mesh (any triangle and line
lists whose adjacency build succeeds), any values of the transcendental
assembly parameters, and any run of the diffusion loop in which the external
solver returns exact solutions of the systems it is handed, every Dirichlet
edge keeps its unknown pair exactly `(1, 0)` after every one of the 10
iterations: its two rows of the iteration operator are the isolated unit
diagonal with the previous state as right-hand side, and the renormalization
step never rescales a Dirichlet edge. -/
theorem C3_dirichlet_pinning (triangles : List id3) (lines : List id2) (r : AdjResult)
    (hr : compute_triangle_adjacencies triangles = some r)
    (bvars : ℕ → ℕ → ℕ) (crw cos4a sin4a : ℕ → ℕ → ℚ) (Mass : ℕ → ℚ) (emin emax : ℚ)
    (norms : ℕ → ℕ → ℚ) (xs : ℕ → List ℚ)
    (h0 : xs 0 = rhs_of r.uIEdges.length (dirichlet_flag r.uIEdges r.uIEdgeToOld lines))
    (hstep : ∀ it, it < 10 →
      IterStep r.uIEdges.length
        (cross_field_matrix r.uIEdges.length (dirichlet_flag r.uIEdges r.uIEdgeToOld lines)
          bvars crw cos4a sin4a)
        (dirichlet_flag r.uIEdges r.uIEdgeToOld lines) Mass (dt_of emin emax 10 it)
        (norms it) (xs it) (xs (it + 1)))
    (t : ℕ) (ht : t ≤ 10) (e : ℕ) (he : e < r.uIEdges.length)
    (hd : dirichlet_flag r.uIEdges r.uIEdgeToOld lines e = true) :
    (xs t).getD (2 * e) 0 = 1 ∧ (xs t).getD (2 * e + 1) 0 = 0 := by
  induction t with
  | zero =>
    rw [h0]
    exact rhs_of_dirichlet r.uIEdges.length _ e he hd
  | succ t ih =>
    have hst := hstep t (by omega)
    unfold IterStep at hst
    obtain ⟨xsol, hsol, hren⟩ := hst
    have ihh := ih (by omega)
    have hd0 : dirichlet_flag r.uIEdges r.uIEdgeToOld lines ((2 * e) / 2) = true := by
      rwa [show 2 * e / 2 = e by omega]
    have hd1 : dirichlet_flag r.uIEdges r.uIEdgeToOld lines ((2 * e + 1) / 2) = true := by
      rwa [show (2 * e + 1) / 2 = e by omega]
    have hc0 := K_columns_dirichlet r.uIEdges.length
      (dirichlet_flag r.uIEdges r.uIEdgeToOld lines) bvars crw cos4a sin4a e he hd
      (2 * e) (Or.inl rfl)
    have hc1 := K_columns_dirichlet r.uIEdges.length
      (dirichlet_flag r.uIEdges r.uIEdgeToOld lines) bvars crw cos4a sin4a e he hd
      (2 * e + 1) (Or.inr rfl)
    have hr0 := hsol (2 * e) (by omega)
    have hr1 := hsol (2 * e + 1) (by omega)
    rw [rowDot_dirichlet _ _ _ _ _ _ hd0 hc0] at hr0
    rw [rowDot_dirichlet _ _ _ _ _ _ hd1 hc1] at hr1
    rw [hren]
    constructor
    · rw [renormalize_dirichlet _ _ _ _ _ (by omega) hd0, hr0]
      exact ihh.1
    · rw [renormalize_dirichlet _ _ _ _ _ (by omega) hd1, hr1]
      exact ihh.2

/-- C3 witness: on the one-triangle mesh every edge is Dirichlet; the constant
trace at (1,0,1,0,1,0) satisfies the exact-solver relation at every iteration,
and edge 0 stays pinned at `(1, 0)` after iteration 10. -/
theorem C3_dirichlet_pinning_witness :
    (compute_triangle_adjacencies demoTriangles = some demoAdj) ∧
    (dirichlet_flag demoAdj.uIEdges demoAdj.uIEdgeToOld [] 0 = true) ∧
    (((fun _ : ℕ => demoState) 10).getD 0 0 = 1 ∧
     ((fun _ : ℕ => demoState) 10).getD 1 0 = 0) := by
  have hr : compute_triangle_adjacencies demoTriangles = some demoAdj := by decide
  have h0 : (fun _ : ℕ => demoState) 0 = rhs_of demoAdj.uIEdges.length
      (dirichlet_flag demoAdj.uIEdges demoAdj.uIEdgeToOld []) := by decide
  have hP : ∀ i, i < 6 →
      K_columns_of (cross_field_matrix demoAdj.uIEdges.length
        (dirichlet_flag demoAdj.uIEdges demoAdj.uIEdgeToOld [])
        (fun _ _ => 0) (fun _ _ => 0) (fun _ _ => 0) (fun _ _ => 0)) i = [i] := by
    intro i hi
    interval_cases i
    · exact K_columns_dirichlet _ _ _ _ _ _ 0 (by decide) (by decide) 0 (Or.inl (by norm_num))
    · exact K_columns_dirichlet _ _ _ _ _ _ 0 (by decide) (by decide) 1 (Or.inr (by norm_num))
    · exact K_columns_dirichlet _ _ _ _ _ _ 1 (by decide) (by decide) 2 (Or.inl (by norm_num))
    · exact K_columns_dirichlet _ _ _ _ _ _ 1 (by decide) (by decide) 3 (Or.inr (by norm_num))
    · exact K_columns_dirichlet _ _ _ _ _ _ 2 (by decide) (by decide) 4 (Or.inl (by norm_num))
    · exact K_columns_dirichlet _ _ _ _ _ _ 2 (by decide) (by decide) 5 (Or.inr (by norm_num))
  have hstep : ∀ it, it < 10 →
      IterStep demoAdj.uIEdges.length
        (cross_field_matrix demoAdj.uIEdges.length
          (dirichlet_flag demoAdj.uIEdges demoAdj.uIEdgeToOld [])
          (fun _ _ => 0) (fun _ _ => 0) (fun _ _ => 0) (fun _ _ => 0))
        (dirichlet_flag demoAdj.uIEdges demoAdj.uIEdgeToOld []) (fun _ => 1)
        (dt_of 1 1 10 it) ((fun _ _ => (1 : ℚ)) it)
        ((fun _ : ℕ => demoState) it) ((fun _ : ℕ => demoState) (it + 1)) := by
    intro it hit
    refine ⟨demoState, ?_, ?_⟩
    · intro i hi
      have hi6 : i < 6 := by
        have h3 : demoAdj.uIEdges.length = 3 := by decide
        omega
      have hci := hP i hi6
      have hdi : dirichlet_flag demoAdj.uIEdges demoAdj.uIEdgeToOld [] (i / 2) = true := by
        interval_cases i <;> decide
      rw [rowDot_dirichlet _ _ _ _ _ _ hdi hci]
    · show demoState = renormalize demoAdj.uIEdges.length
        (dirichlet_flag demoAdj.uIEdges demoAdj.uIEdgeToOld []) (fun _ => 1) demoState
      decide
  exact ⟨hr, by decide,
    C3_dirichlet_pinning demoTriangles [] demoAdj hr (fun _ _ => 0) (fun _ _ => 0)
      (fun _ _ => 0) (fun _ _ => 0) (fun _ => 1) 1 1 (fun _ _ => 1) (fun _ => demoState)
      h0 hstep 10 (by norm_num) 0 (by decide) (by decide)⟩

end QMT
